import Mathlib

/-!
# Verification of `generate_viewer.py`

A shallow embedding of the message-viewer bundler: file discovery, lossy
UTF-8 loading, JSON serialization (`json.dumps(..., ensure_ascii=False,
indent=2)`), template marker substitution (`str.replace(old, new, 1)`),
and the orchestrating `run`.  Text is modelled as `List Char`, file bytes
as `List Nat`.
-/

namespace GenerateViewer

/-- Characters of a string. -/
def strL (s : String) : List Char := s.data

/-- The literal template marker `window.IMESSAGE_DATA = {};`. -/
def markerL : List Char := strL "window.IMESSAGE_DATA = \x7b\x7d;"

/-- The fixed prefix `window.IMESSAGE_DATA = ` of the injected assignment. -/
def assignPrefixL : List Char := strL "window.IMESSAGE_DATA = "

/-- The replacement text `window.IMESSAGE_DATA = <serialized>;`. -/
def injectNew (serialized : List Char) : List Char :=
  assignPrefixL ++ serialized ++ [';']

/-- Python `s.replace(old, new, 1)`: replace the leftmost occurrence of
`old` (scanning positions left to right), or return `s` unchanged if
`old` does not occur. -/
def replaceFirst : List Char → List Char → List Char → List Char
  | [], _old, _new => []
  | c :: rest, old, new =>
    if old.isPrefixOf (c :: rest) then new ++ (c :: rest).drop old.length
    else c :: replaceFirst rest old new

/-- Embedding of `viewer_html.replace('window.IMESSAGE_DATA = {};',
f'window.IMESSAGE_DATA = {data_json};', 1)` from the source. -/
def inject (template serialized : List Char) : List Char :=
  replaceFirst template markerL (injectNew serialized)

/-- Number of positions of `s` at which `pat` occurs (as a contiguous
substring); positions may overlap. -/
def countOcc : List Char → List Char → Nat
  | [], _pat => 0
  | c :: rest, pat =>
    (if pat.isPrefixOf (c :: rest) then 1 else 0) + countOcc rest pat

/-- A pattern never matches itself at a shifted position: no nonempty
proper suffix of `l` is a prefix of `l`. -/
def overlapFree (l : List Char) : Prop :=
  ∀ d < l.length, 0 < d → l.drop d ≠ l.take (l.length - d)

instance (l : List Char) : Decidable (overlapFree l) := by
  unfold overlapFree; infer_instance

/-- The sentinel file name `orphaned.txt`. -/
def orphanedL : List Char := strL "orphaned.txt"

/-- Match of a file name against the glob pattern `*.txt` in the
`fnmatch` style `pathlib.Path.glob` uses: `*` matches any character
sequence, so the pattern holds exactly of names ending in `.txt`. -/
def globTxt (n : List Char) : Bool :=
  (strL ".txt").isSuffixOf n

/-- Embedding of the comprehension
`[f for f in messages_dir.glob('*.txt') if f.name != 'orphaned.txt']`:
the directory listing filtered to `*.txt` matches other than the sentinel. -/
def discover (listing : List (List Char)) : List (List Char) :=
  listing.filter (fun n => globTxt n && decide (n ≠ orphanedL))

/-- A UTF-8 continuation byte (`0x80`–`0xBF`). -/
def isCont (b : Nat) : Bool := decide (0x80 ≤ b ∧ b < 0xC0)

/-- Admissible first continuation byte after lead byte `b` (the ranges
CPython's UTF-8 decoder enforces, excluding overlong forms and
surrogates). -/
def cont1Ok (b b2 : Nat) : Bool :=
  if b = 0xE0 then decide (0xA0 ≤ b2 ∧ b2 < 0xC0)
  else if b = 0xED then decide (0x80 ≤ b2 ∧ b2 < 0xA0)
  else if b = 0xF0 then decide (0x90 ≤ b2 ∧ b2 < 0xC0)
  else if b = 0xF4 then decide (0x80 ≤ b2 ∧ b2 < 0x90)
  else isCont b2

/-- UTF-8 decoding with `errors='ignore'`: invalid maximal subparts are
dropped (an invalid lead byte is skipped; a partially valid multi-byte
sequence is skipped up to its first invalid byte; a truncated sequence
at the end of input is dropped).  The fuel argument of the worker is the
input length, ample since every step consumes at least one byte. -/
def utf8DecodeIgnore (l : List Nat) : List Char := go l.length l
where
  go : Nat → List Nat → List Char
  | 0, _ => []
  | _fuel + 1, [] => []
  | fuel + 1, b :: rest =>
    if b < 0x80 then Char.ofNat b :: go fuel rest
    else if b < 0xC2 then go fuel rest
    else if b < 0xE0 then
      match rest with
      | [] => []
      | b2 :: rest2 =>
        if isCont b2 then
          Char.ofNat ((b - 0xC0) * 64 + (b2 - 0x80)) :: go fuel rest2
        else go fuel rest
    else if b < 0xF0 then
      match rest with
      | [] => []
      | b2 :: rest2 =>
        if cont1Ok b b2 then
          match rest2 with
          | [] => []
          | b3 :: rest3 =>
            if isCont b3 then
              Char.ofNat ((b - 0xE0) * 4096 + (b2 - 0x80) * 64 + (b3 - 0x80)) ::
                go fuel rest3
            else go fuel rest2
        else go fuel rest
    else if b < 0xF5 then
      match rest with
      | [] => []
      | b2 :: rest2 =>
        if cont1Ok b b2 then
          match rest2 with
          | [] => []
          | b3 :: rest3 =>
            if isCont b3 then
              match rest3 with
              | [] => []
              | b4 :: rest4 =>
                if isCont b4 then
                  Char.ofNat ((b - 0xF0) * 262144 + (b2 - 0x80) * 4096 +
                      (b3 - 0x80) * 64 + (b4 - 0x80)) :: go fuel rest4
                else go fuel rest3
            else go fuel rest2
        else go fuel rest
    else go fuel rest

/-- Whether a byte sequence is valid UTF-8 throughout (the strict decode
would raise no error). -/
def validUtf8 (l : List Nat) : Bool := go l.length l
where
  go : Nat → List Nat → Bool
  | 0, _ => true
  | _fuel + 1, [] => true
  | fuel + 1, b :: rest =>
    if b < 0x80 then go fuel rest
    else if b < 0xC2 then false
    else if b < 0xE0 then
      match rest with
      | [] => false
      | b2 :: rest2 => if isCont b2 then go fuel rest2 else false
    else if b < 0xF0 then
      match rest with
      | [] => false
      | b2 :: rest2 =>
        if cont1Ok b b2 then
          match rest2 with
          | [] => false
          | b3 :: rest3 => if isCont b3 then go fuel rest3 else false
        else false
    else if b < 0xF5 then
      match rest with
      | [] => false
      | b2 :: rest2 =>
        if cont1Ok b b2 then
          match rest2 with
          | [] => false
          | b3 :: rest3 =>
            if isCont b3 then
              match rest3 with
              | [] => false
              | b4 :: rest4 => if isCont b4 then go fuel rest4 else false
            else false
        else false
    else false

/-- Universal-newline translation performed by text-mode reading:
`\r\n` and lone `\r` both become `\n`. -/
def newlineTranslate : List Char → List Char
  | [] => []
  | '\r' :: '\n' :: rest => '\n' :: newlineTranslate rest
  | '\r' :: rest => '\n' :: newlineTranslate rest
  | c :: rest => c :: newlineTranslate rest

/-- The text `f.read()` yields for a file with the given bytes under
`open(..., 'r', encoding='utf-8', errors='ignore')`. -/
def loadContent (bytes : List Nat) : List Char :=
  newlineTranslate (utf8DecodeIgnore bytes)

/-- Outcome of attempting to open and read one conversation file:
its raw bytes, or an I/O error message. -/
abbrev ReadResult := Except (List Char) (List Nat)

/-- The per-file loop of `main`: successfully read files are decoded and
recorded as `message_data[txt_file.name] = content`; a file whose read
raises is skipped. -/
def buildDataset (files : List (List Char × ReadResult)) :
    List (List Char × List Char) :=
  files.filterMap fun f =>
    match f.2 with
    | Except.ok bytes => some (f.1, loadContent bytes)
    | Except.error _ => none

/-- One progress line printed by the per-file loop. -/
inductive LogMsg where
  | loaded (name : List Char) (lengthChars : Nat)
  | readError (name : List Char) (err : List Char)
  deriving DecidableEq

/-- The diagnostics the per-file loop prints, in order: `Loaded: ...` on
success, `Error reading ...` on failure. -/
def buildLog (files : List (List Char × ReadResult)) : List LogMsg :=
  files.map fun f =>
    match f.2 with
    | Except.ok bytes => LogMsg.loaded f.1 (loadContent bytes).length
    | Except.error e => LogMsg.readError f.1 e

/-- JSON escape of one character under `ensure_ascii=False`: only `"`,
`\` and control characters below `0x20` are escaped; everything else
(in particular all non-ASCII) is emitted literally. -/
def escChar (c : Char) : List Char :=
  if c = '"' then ['\\', '"']
  else if c = '\\' then ['\\', '\\']
  else if c = '\x08' then ['\\', 'b']
  else if c = '\x0c' then ['\\', 'f']
  else if c = '\n' then ['\\', 'n']
  else if c = '\r' then ['\\', 'r']
  else if c = '\t' then ['\\', 't']
  else if c.toNat < 0x20 then
    ['\\', 'u', '0', '0', hexDigitChar (c.toNat / 16), hexDigitChar (c.toNat % 16)]
  else [c]
where
  /-- Lowercase hexadecimal digit. -/
  hexDigitChar (n : Nat) : Char :=
    if n < 10 then Char.ofNat (48 + n) else Char.ofNat (87 + n)

/-- JSON escape of a whole string (contents between the quotes). -/
def escString (s : List Char) : List Char := (s.map escChar).flatten

/-- One serialized entry `  "key": "value"` (at `indent=2`). -/
def entryOf (kv : List Char × List Char) : List Char :=
  [' ', ' ', '"'] ++ escString kv.1 ++ ['"', ':', ' ', '"'] ++ escString kv.2 ++ ['"']

/-- Embedding of `json.dumps(message_data, ensure_ascii=False, indent=2)`:
`{}` for the empty mapping, otherwise one indented line per entry,
comma-separated, between `{` and `}`. -/
def dumps (m : List (List Char × List Char)) : List Char :=
  match m with
  | [] => ['\x7b', '\x7d']
  | _ :: _ =>
    '\x7b' :: '\n' :: joinEntries m ++ ['\n', '\x7d']
where
  /-- The entry lines joined by `",\n"`. -/
  joinEntries : List (List Char × List Char) → List Char
    | [] => []
    | [kv] => entryOf kv
    | kv :: rest => entryOf kv ++ ',' :: '\n' :: joinEntries rest

/-- Value of one hexadecimal digit character. -/
def hexVal (c : Char) : Option Nat :=
  if '0' ≤ c ∧ c ≤ '9' then some (c.toNat - 48)
  else if 'a' ≤ c ∧ c ≤ 'f' then some (c.toNat - 87)
  else if 'A' ≤ c ∧ c ≤ 'F' then some (c.toNat - 55)
  else none

/-- The character denoted by a single-character JSON escape `\e`. -/
def unescChar (e : Char) : Option Char :=
  if e = '"' then some '"'
  else if e = '\\' then some '\\'
  else if e = '/' then some '/'
  else if e = 'b' then some '\x08'
  else if e = 'f' then some '\x0c'
  else if e = 'n' then some '\n'
  else if e = 'r' then some '\r'
  else if e = 't' then some '\t'
  else none

/-- Parse a JSON string body (the input starts just after the opening
quote): returns the decoded contents and the remaining input after the
closing quote. -/
def parseJStr : List Char → Option (List Char × List Char)
  | [] => none
  | '"' :: rest => some ([], rest)
  | '\\' :: 'u' :: h1 :: h2 :: h3 :: h4 :: rest =>
    match hexVal h1, hexVal h2, hexVal h3, hexVal h4 with
    | some v1, some v2, some v3, some v4 =>
      (parseJStr rest).map fun p =>
        (Char.ofNat (((v1 * 16 + v2) * 16 + v3) * 16 + v4) :: p.1, p.2)
    | _, _, _, _ => none
  | '\\' :: e :: rest =>
    match unescChar e with
    | some c => (parseJStr rest).map fun p => (c :: p.1, p.2)
    | none => none
  | c :: rest => (parseJStr rest).map fun p => (c :: p.1, p.2)

/-- Parse the comma-separated entry lines of a non-empty serialized
object, up to and including the closing `\n\x7d`.  The fuel bounds the
number of entries. -/
def parseEntries : Nat → List Char → Option (List (List Char × List Char))
  | 0, _ => none
  | fuel + 1, ' ' :: ' ' :: '"' :: rest =>
    match parseJStr rest with
    | none => none
    | some (k, r1) =>
      match r1 with
      | ':' :: ' ' :: '"' :: r2 =>
        match parseJStr r2 with
        | none => none
        | some (v, r3) =>
          match r3 with
          | ',' :: '\n' :: more =>
            (parseEntries fuel more).map fun es => (k, v) :: es
          | ['\n', '\x7d'] => some [(k, v)]
          | _ => none
      | _ => none
  | _ + 1, _ => none

/-- Parse the output format of `dumps` back into the key/value list
(the JSON grammar restricted to the serializer's layout, as `json.loads`
reads it). -/
def parse (s : List Char) : Option (List (List Char × List Char)) :=
  match s with
  | ['\x7b', '\x7d'] => some []
  | '\x7b' :: '\n' :: rest => parseEntries s.length rest
  | _ => none

/-- The whole of `main` after the per-file loop, with I/O abstracted:
given the discovered files' read outcomes and the template read outcome,
produce the document written to `viewer.html`.  The template read is not
guarded by any handler, so its failure propagates. -/
def run (files : List (List Char × ReadResult))
    (templateResult : Except (List Char) (List Char)) :
    Except (List Char) (List Char) :=
  match templateResult with
  | Except.error e => Except.error e
  | Except.ok tmpl => Except.ok (inject tmpl (dumps (buildDataset files)))

/-- The pattern `pat` occurs in `s` starting at position `i`. -/
def occursAt (s pat : List Char) (i : Nat) : Prop :=
  pat <+: s.drop i

/-! ## Generic facts about occurrence counting and first-match replacement -/


theorem countOcc_cons (c : Char) (rest pat : List Char) :
    countOcc (c :: rest) pat =
      (if pat.isPrefixOf (c :: rest) then 1 else 0) + countOcc rest pat := rfl

theorem countOcc_cons_pos {c : Char} {rest pat : List Char}
    (h : pat <+: c :: rest) :
    countOcc (c :: rest) pat = 1 + countOcc rest pat := by
  rw [countOcc_cons, if_pos ( List.isPrefixOf_iff_prefix.mpr h)]

theorem countOcc_cons_neg {c : Char} {rest pat : List Char}
    (h : ¬ pat <+: c :: rest) :
    countOcc (c :: rest) pat = countOcc rest pat := by
  rw [countOcc_cons, if_neg (by simpa [ List.isPrefixOf_iff_prefix] using h),
    Nat.zero_add]

theorem countOcc_eq_zero {s pat : List Char} (hp : pat ≠ []) :
    countOcc s pat = 0 ↔ ∀ i, ¬ occursAt s pat i := by
  induction s with
  | nil =>
    constructor
    · intro _ i h
      rw [occursAt, List.drop_nil] at h
      exact hp (List.prefix_nil.mp h)
    · intro _
      rfl
  | cons c rest ih =>
    constructor
    · intro h i
      have hhead : ¬ pat <+: c :: rest := by
        intro hpre
        rw [countOcc_cons_pos hpre] at h
        omega
      have hrest : countOcc rest pat = 0 := by
        rwa [countOcc_cons_neg hhead] at h
      match i with
      | 0 =>
        intro ho
        exact hhead (by simpa [occursAt] using ho)
      | i + 1 =>
        intro ho
        exact (ih.mp hrest i) (by simpa [occursAt, List.drop_succ_cons] using ho)
    · intro h
      have h0 : ¬ pat <+: c :: rest := by simpa [occursAt] using h 0
      rw [countOcc_cons_neg h0]
      exact ih.mpr fun i => by
        simpa [occursAt, List.drop_succ_cons] using h (i + 1)

theorem countOcc_ne_zero_of_occursAt {s pat : List Char} {i : Nat}
    (hp : pat ≠ []) (h : occursAt s pat i) : countOcc s pat ≠ 0 :=
  fun hz => (countOcc_eq_zero hp).mp hz i h

/-- Two overlapping occurrences of the same pattern force a nonempty
proper border: the pattern shifted by `d` matches its own prefix. -/
theorem border_of_overlap {s pat : List Char} {i d : Nat}
    (h1 : occursAt s pat i) (h2 : occursAt s pat (i + d))
    (hdl : d < pat.length) :
    pat.drop d = pat.take (pat.length - d) := by
  have e1 : pat = (s.drop i).take pat.length := List.prefix_iff_eq_take.mp h1
  have e2 : pat = (s.drop (i + d)).take pat.length := List.prefix_iff_eq_take.mp h2
  calc pat.drop d
      = ((s.drop i).take pat.length).drop d := by rw [← e1]
    _ = ((s.drop i).drop d).take (pat.length - d) := by rw [List.drop_take]
    _ = (s.drop (i + d)).take (pat.length - d) := by
        rw [List.drop_drop]
    _ = ((s.drop (i + d)).take pat.length).take (pat.length - d) := by
        rw [List.take_take, Nat.min_eq_left (Nat.sub_le _ _)]
    _ = pat.take (pat.length - d) := by rw [← e2]

/-- An occurrence fitting inside the left part of an append is an
occurrence in that part. -/
theorem occursAt_left {X Y pat : List Char} {i : Nat}
    (h : occursAt (X ++ Y) pat i) (hle : i + pat.length ≤ X.length) :
    occursAt X pat i := by
  have hi : i ≤ X.length := le_trans (Nat.le_add_right _ _) hle
  have hd : (X ++ Y).drop i = X.drop i ++ Y := by
    rw [List.drop_append_eq_append_drop, Nat.sub_eq_zero_of_le hi, List.drop_zero]
  rw [occursAt, hd] at h
  have e : pat = (X.drop i ++ Y).take pat.length := List.prefix_iff_eq_take.mp h
  have hlen : pat.length ≤ (X.drop i).length := by
    rw [List.length_drop]
    omega
  rw [List.take_append_eq_append_take, Nat.sub_eq_zero_of_le hlen, List.take_zero,
    List.append_nil] at e
  rw [occursAt, e]
  exact List.take_prefix _ _

/-- An occurrence in the right part of an append, shifted. -/
theorem occursAt_append_right {X Y pat : List Char} {j : Nat}
    (h : occursAt Y pat j) : occursAt (X ++ Y) pat (X.length + j) := by
  rw [occursAt, List.drop_append_eq_append_drop,
    List.drop_of_length_le (Nat.le_add_right _ _), Nat.add_sub_cancel_left,
    List.nil_append]
  exact h

/-- An occurrence past the left part of an append lies in the right part. -/
theorem occursAt_right {X Y pat : List Char} {i : Nat}
    (h : occursAt (X ++ Y) pat i) (hge : X.length ≤ i) :
    occursAt Y pat (i - X.length) := by
  rw [occursAt, List.drop_append_eq_append_drop,
    List.drop_of_length_le hge, List.nil_append] at h
  exact h

/-- No occurrence of an overlap-free pattern can start inside a nonempty
block `X` that contains none and is followed immediately by the pattern. -/
theorem not_prefix_sandwich {X S pat : List Char}
    (hp : pat ≠ []) (hov : overlapFree pat)
    (hX : countOcc X pat = 0) (hne : X ≠ []) :
    ¬ pat <+: X ++ pat ++ S := by
  intro hpre
  have h0 : occursAt (X ++ (pat ++ S)) pat 0 := by
    simpa [occursAt, List.append_assoc] using hpre
  have hX0 : 0 < X.length := List.length_pos.mpr hne
  by_cases hcase : pat.length ≤ X.length
  · exact countOcc_ne_zero_of_occursAt hp
      (occursAt_left h0 (by simpa using hcase)) hX
  · have hmid : occursAt (X ++ (pat ++ S)) pat (0 + X.length) := by
      rw [Nat.zero_add]
      have hps : occursAt (pat ++ S) pat 0 := by
        simpa [occursAt] using List.prefix_append pat S
      simpa using occursAt_append_right (X := X) hps
    exact hov X.length (Nat.lt_of_not_le hcase) hX0
      (border_of_overlap h0 hmid (Nat.lt_of_not_le hcase))

/-- Dropping a nonempty prefix of an overlap-free pattern destroys all
occurrences that would start inside the remaining suffix. -/
theorem countOcc_drop_self {pat : List Char} (hov : overlapFree pat) :
    ∀ n j S, pat.length - j = n → 0 < j →
      countOcc (pat.drop j ++ S) pat = countOcc S pat := by
  intro n
  induction n with
  | zero =>
    intro j S hn _
    rw [List.drop_of_length_le (by omega), List.nil_append]
  | succ n ih =>
    intro j S hn hj
    have hjlt : j < pat.length := by omega
    have hdc : pat.drop j = pat[j] :: pat.drop (j + 1) :=
      List.drop_eq_getElem_cons hjlt
    rw [hdc, List.cons_append]
    have hnp : ¬ pat <+: pat[j] :: (pat.drop (j + 1) ++ S) := by
      intro hpre
      rw [← List.cons_append, ← hdc] at hpre
      have hpre' : occursAt (pat ++ S) pat j := by
        have hsplit : pat.take j ++ (pat.drop j ++ S) = pat ++ S := by
          rw [← List.append_assoc, List.take_append_drop]
        have h2 := @occursAt_append_right (pat.take j) (pat.drop j ++ S) pat 0
          (by simpa [occursAt] using hpre)
        rw [hsplit] at h2
        simpa [List.length_take, Nat.min_eq_left (le_of_lt hjlt)] using h2
      have h0 : occursAt (pat ++ S) pat 0 := by
        simpa [occursAt] using List.prefix_append pat S
      have hb := border_of_overlap h0 (by simpa using hpre') hjlt
      exact hov j hjlt hj hb
    rw [countOcc_cons_neg hnp]
    exact ih (j + 1) S (by omega) (by omega)

/-- Variant of `countOcc_drop_self` without the measure argument. -/
theorem countOcc_drop_append {pat : List Char} (hov : overlapFree pat)
    (j : Nat) (S : List Char) (hj : 0 < j) :
    countOcc (pat.drop j ++ S) pat = countOcc S pat :=
  countOcc_drop_self hov (pat.length - j) j S rfl hj

/-- Occurrence count across `X ++ pat ++ S` for an overlap-free pattern
absent from `X`: exactly the sandwiched occurrence plus those of `S`. -/
theorem countOcc_sandwich {X S pat : List Char}
    (hp : pat ≠ []) (hov : overlapFree pat) (hX : countOcc X pat = 0) :
    countOcc (X ++ pat ++ S) pat = 1 + countOcc S pat := by
  induction X with
  | nil =>
    cases pat with
    | nil => exact absurd rfl hp
    | cons p pt =>
      rw [List.nil_append, List.cons_append,
        countOcc_cons_pos (by
          simpa using List.prefix_append (p :: pt) S)]
      have : countOcc ((p :: pt).drop 1 ++ S) (p :: pt) = countOcc S (p :: pt) :=
        countOcc_drop_append hov 1 S Nat.one_pos
      simpa using this
  | cons c X' ih =>
    have hX' : countOcc X' pat = 0 := by
      by_cases hpre : pat <+: c :: X'
      · rw [countOcc_cons_pos hpre] at hX
        omega
      · rwa [countOcc_cons_neg hpre] at hX
    have hnp : ¬ pat <+: (c :: X') ++ pat ++ S :=
      not_prefix_sandwich (S := S) hp hov hX (List.cons_ne_nil c X')
    rw [List.cons_append, List.cons_append] at hnp ⊢
    rw [countOcc_cons_neg hnp]
    exact ih hX'

/-- Every string with an occurrence splits at the first occurrence. -/
theorem first_occurrence {s pat : List Char}
    (hp : pat ≠ []) (h : countOcc s pat ≠ 0) :
    ∃ X S, s = X ++ pat ++ S ∧ countOcc X pat = 0 := by
  induction s with
  | nil => exact absurd rfl h
  | cons c rest ih =>
    by_cases hpre : pat <+: c :: rest
    · rcases hpre with ⟨T, hT⟩
      exact ⟨[], T, by simpa using hT.symm, rfl⟩
    · rw [countOcc_cons_neg hpre] at h
      rcases ih h with ⟨X, S, hs, hX⟩
      refine ⟨c :: X, S, by simpa using hs, ?_⟩
      rw [countOcc_cons_neg ?_, hX]
      intro hc
      apply hpre
      have hre : c :: rest = (c :: X) ++ (pat ++ S) := by
        rw [hs]
        simp [List.append_assoc]
      rw [hre]
      exact hc.trans (List.prefix_append _ _)

theorem replaceFirst_cons_pos {c : Char} {rest old new : List Char}
    (h : old <+: c :: rest) :
    replaceFirst (c :: rest) old new = new ++ (c :: rest).drop old.length := by
  rw [replaceFirst, if_pos ( List.isPrefixOf_iff_prefix.mpr h)]

theorem replaceFirst_cons_neg {c : Char} {rest old new : List Char}
    (h : ¬ old <+: c :: rest) :
    replaceFirst (c :: rest) old new = c :: replaceFirst rest old new := by
  rw [replaceFirst, if_neg (by simpa [ List.isPrefixOf_iff_prefix] using h)]

/-- Replacement is the identity when the pattern does not occur. -/
theorem replaceFirst_no_occ {s pat new : List Char}
    (h : countOcc s pat = 0) : replaceFirst s pat new = s := by
  induction s with
  | nil => rfl
  | cons c rest ih =>
    have h1 : ¬ pat <+: c :: rest := by
      intro hpre
      rw [countOcc_cons_pos hpre] at h
      omega
    have h2 : countOcc rest pat = 0 := by
      rwa [countOcc_cons_neg h1] at h
    rw [replaceFirst_cons_neg h1, ih h2]

/-- Applied to a string decomposed at its first occurrence, `replaceFirst`
replaces the pattern block and keeps everything else:
the pattern block is replaced, everything else is kept verbatim. -/
theorem replaceFirst_sandwich {X S pat new : List Char}
    (hp : pat ≠ []) (hov : overlapFree pat) (hX : countOcc X pat = 0) :
    replaceFirst (X ++ pat ++ S) pat new = X ++ new ++ S := by
  induction X with
  | nil =>
    cases pat with
    | nil => exact absurd rfl hp
    | cons p pt =>
      rw [List.nil_append, List.cons_append,
        replaceFirst_cons_pos (by simpa using List.prefix_append (p :: pt) S),
        ← List.cons_append, List.drop_left, List.nil_append]
  | cons c X' ih =>
    have hX' : countOcc X' pat = 0 := by
      by_cases hpre : pat <+: c :: X'
      · rw [countOcc_cons_pos hpre] at hX
        omega
      · rwa [countOcc_cons_neg hpre] at hX
    have hnp : ¬ pat <+: (c :: X') ++ pat ++ S :=
      not_prefix_sandwich (S := S) hp hov hX (List.cons_ne_nil c X')
    rw [List.cons_append, List.cons_append] at hnp ⊢
    rw [replaceFirst_cons_neg hnp, ih hX']
    simp

/-! ## Facts about the concrete marker -/

theorem markerL_ne_nil : markerL ≠ [] := by decide

theorem markerL_overlapFree : overlapFree markerL := by decide

/-- Keys of the dataset come from the processed file list. -/
theorem mem_keys_buildDataset {files : List (List Char × ReadResult)}
    {n : List Char} (h : n ∈ (buildDataset files).map Prod.fst) :
    n ∈ files.map Prod.fst := by
  induction files with
  | nil => simpa [buildDataset] using h
  | cons f rest ih =>
    match f with
    | (nm, Except.ok bytes) =>
      rw [buildDataset, List.filterMap_cons] at h
      simp only [List.map_cons, List.mem_cons] at h ⊢
      rcases h with h | h
      · exact Or.inl h
      · exact Or.inr (ih (by simpa [buildDataset] using h))
    | (nm, Except.error e) =>
      rw [buildDataset, List.filterMap_cons] at h
      simp only [List.map_cons, List.mem_cons]
      exact Or.inr (ih (by simpa [buildDataset] using h))

theorem buildDataset_append (a b : List (List Char × ReadResult)) :
    buildDataset (a ++ b) = buildDataset a ++ buildDataset b :=
  List.filterMap_append ..

/-! ## The claims -/

/-- Claim C3: `discover` excludes any file literally named `orphaned.txt`
(case-sensitively), includes every other file of the listing whose name
matches `*.txt`, and returns the empty list (rather than failing) when
nothing matches. -/
theorem C3_discover_spec (d : List (List Char)) :
    orphanedL ∉ discover d ∧
    (∀ n ∈ d, globTxt n = true → n ≠ orphanedL → n ∈ discover d) ∧
    ((∀ n ∈ d, ¬(globTxt n = true ∧ n ≠ orphanedL)) → discover d = []) := by
  refine ⟨?_, ?_, ?_⟩
  · intro hmem
    have := (List.mem_filter.mp hmem).2
    simp at this
  · intro n hn hg hne
    exact List.mem_filter.mpr ⟨hn, by simp [hg, hne]⟩
  · intro h
    refine List.filter_eq_nil_iff.mpr fun a ha => ?_
    have := h a ha
    simp only [Bool.and_eq_true, decide_eq_true_eq]
    intro hcontra
    exact this ⟨hcontra.1, hcontra.2⟩

/-- Witness for C3 at a concrete directory listing. -/
theorem C3_discover_spec_witness :
    strL "a.txt" ∈ discover [strL "a.txt", strL "orphaned.txt"] ∧
    orphanedL ∉ discover [strL "a.txt", strL "orphaned.txt"] :=
  ⟨(C3_discover_spec [strL "a.txt", strL "orphaned.txt"]).2.1
      (strL "a.txt") (by decide) (by decide) (by decide),
    (C3_discover_spec [strL "a.txt", strL "orphaned.txt"]).1⟩

/-- Claim C5: A template with zero occurrences of the marker is returned
unchanged by `inject`, and no error is possible. -/
theorem C5_inject_zero_occ (t D : List Char)
    (h : countOcc t markerL = 0) : inject t D = t :=
  replaceFirst_no_occ h

/-- Witness for C5 on a concrete marker-free template. -/
theorem C5_inject_zero_occ_witness :
    countOcc (strL "<p>hello</p>") markerL = 0 ∧
    inject (strL "<p>hello</p>") (strL "x") = strL "<p>hello</p>" :=
  ⟨by decide, C5_inject_zero_occ (strL "<p>hello</p>") (strL "x") (by decide)⟩

/-- Claim C10: On a template `prefix ++ marker ++ suffix` whose prefix is
marker-free, `inject` yields exactly
`prefix ++ "window.IMESSAGE_DATA = " ++ serialized ++ ";" ++ suffix`:
everything outside the first marker occurrence survives verbatim. -/
theorem C10_inject_frame (P S D : List Char)
    (hP : countOcc P markerL = 0) :
    inject (P ++ markerL ++ S) D =
      P ++ assignPrefixL ++ D ++ strL ";" ++ S := by
  rw [inject, replaceFirst_sandwich markerL_ne_nil markerL_overlapFree hP,
    injectNew]
  simp [List.append_assoc, strL]

/-- Witness for C10 at a concrete decomposition. -/
theorem C10_inject_frame_witness :
    countOcc (strL "<a>") markerL = 0 ∧
    inject (strL "<a>" ++ markerL ++ strL "<b>") (strL "1") =
      strL "<a>" ++ assignPrefixL ++ strL "1" ++ strL ";" ++ strL "<b>" :=
  ⟨by decide, C10_inject_frame (strL "<a>") (strL "<b>") (strL "1") (by decide)⟩

/-- Claim C4: A template containing the marker exactly twice splits as
`P ++ marker ++ S` with the second occurrence inside `S`; `inject`
replaces only the first occurrence, carrying `S` (hence the second,
still-literal marker) over unchanged. -/
theorem C4_inject_second_occ_survives (t D : List Char)
    (h : countOcc t markerL = 2) :
    (∃ P S, t = P ++ markerL ++ S ∧ countOcc P markerL = 0 ∧
      countOcc S markerL = 1 ∧ inject t D = P ++ injectNew D ++ S) ∧
    1 ≤ countOcc (inject t D) markerL := by
  obtain ⟨P, S, ht, hP⟩ :=
    first_occurrence markerL_ne_nil (s := t) (by omega)
  have hS : countOcc S markerL = 1 := by
    have := countOcc_sandwich (S := S) markerL_ne_nil markerL_overlapFree hP
    rw [← ht, h] at this
    omega
  have hinj : inject t D = P ++ injectNew D ++ S := by
    rw [ht, inject, replaceFirst_sandwich markerL_ne_nil markerL_overlapFree hP]
  refine ⟨⟨P, S, ht, hP, hS, hinj⟩, ?_⟩
  obtain ⟨i, hi⟩ : ∃ i, occursAt S markerL i := by
    by_contra hnone
    push_neg at hnone
    exact absurd ((countOcc_eq_zero markerL_ne_nil).mpr hnone) (by omega)
  have : occursAt (inject t D) markerL ((P ++ injectNew D).length + i) := by
    rw [hinj, List.append_assoc]
    have := occursAt_append_right (X := P ++ injectNew D) hi
    simpa [List.append_assoc] using this
  have hne := countOcc_ne_zero_of_occursAt markerL_ne_nil this
  omega

/-- Witness for C4 on a template holding the marker twice. -/
theorem C4_inject_second_occ_survives_witness :
    countOcc (markerL ++ markerL) markerL = 2 ∧
    1 ≤ countOcc (inject (markerL ++ markerL) (strL "1")) markerL :=
  ⟨by decide,
    (C4_inject_second_occ_survives (markerL ++ markerL) (strL "1") (by decide)).2⟩

/-- Claim C7: A failed template read propagates out of `run` untouched:
the run terminates with that error and produces no output document. -/
theorem C7_template_error_propagates (files : List (List Char × ReadResult))
    (e : List Char) : run files (Except.error e) = Except.error e := rfl

/-- Claim C6: A conversation file whose read fails is logged and skipped:
the dataset equals the one built without it, its name is absent from the
dataset keys, and the diagnostic appears in the log. -/
theorem C6_read_error_skips_file (pre post : List (List Char × ReadResult))
    (n e : List Char)
    (hnodup : ((pre ++ (n, Except.error e) :: post).map Prod.fst).Nodup) :
    buildDataset (pre ++ (n, Except.error e) :: post) = buildDataset (pre ++ post) ∧
    n ∉ (buildDataset (pre ++ (n, Except.error e) :: post)).map Prod.fst ∧
    LogMsg.readError n e ∈ buildLog (pre ++ (n, Except.error e) :: post) := by
  have heq : buildDataset (pre ++ (n, Except.error e) :: post) =
      buildDataset (pre ++ post) := by
    rw [buildDataset_append, buildDataset_append]
    congr 1
  refine ⟨heq, ?_, ?_⟩
  · intro hmem
    rw [heq] at hmem
    have hin := mem_keys_buildDataset hmem
    have : n ∉ (pre ++ post).map Prod.fst := by
      rw [List.map_append] at hnodup ⊢
      rw [List.map_cons] at hnodup
      exact (List.nodup_cons.mp (List.nodup_middle.mp hnodup)).1
    exact this hin
  · have hpair : (n, (Except.error e : ReadResult)) ∈
        pre ++ (n, Except.error e) :: post :=
      List.mem_append_right _ (List.mem_cons_self _ _)
    exact List.mem_map_of_mem _ hpair

/-- Witness for C6 at a concrete file list. -/
theorem C6_read_error_skips_file_witness :
    buildDataset [(strL "a.txt", Except.ok [104, 105]),
        (strL "bad.txt", Except.error (strL "denied"))] =
      buildDataset [(strL "a.txt", Except.ok [104, 105])] ∧
    strL "bad.txt" ∉ (buildDataset [(strL "a.txt", Except.ok [104, 105]),
        (strL "bad.txt", Except.error (strL "denied"))]).map Prod.fst ∧
    LogMsg.readError (strL "bad.txt") (strL "denied") ∈
      buildLog [(strL "a.txt", Except.ok [104, 105]),
        (strL "bad.txt", Except.error (strL "denied"))] := by
  have := C6_read_error_skips_file [(strL "a.txt", Except.ok [104, 105])] []
    (strL "bad.txt") (strL "denied") (by decide)
  simpa using this

/-- Claim C8, counterexample: The loaded content is not always the bare
lossy UTF-8 decode: text mode also performs universal-newline
translation, so the invalid-UTF-8 file `[0xFF, 0x0D]` loads as `"\n"`
while the lossy decode alone yields `"\r"`. -/
theorem C8_counterexample :
    validUtf8 [0xFF, 0x0D] = false ∧
    utf8DecodeIgnore [0xFF, 0x0D] = strL "\r" ∧
    buildDataset [(strL "a.txt", Except.ok [0xFF, 0x0D])] =
      [(strL "a.txt", strL "\n")] ∧
    loadContent [0xFF, 0x0D] ≠ utf8DecodeIgnore [0xFF, 0x0D] := by
  refine ⟨by decide, by decide, by decide, by decide⟩

/-- Claim C8, amended: A file whose bytes are not valid UTF-8 still loads
successfully: it is never skipped, it appears in the dataset, and its
content is the lossy UTF-8 decode followed by universal-newline
translation. -/
theorem C8_invalid_utf8_still_loads (pre post : List (List Char × ReadResult))
    (n : List Char) (bytes : List Nat)
    (hinvalid : validUtf8 bytes = false) :
    (n, loadContent bytes) ∈ buildDataset (pre ++ (n, Except.ok bytes) :: post) := by
  rw [buildDataset_append]
  refine List.mem_append_right _ ?_
  rw [buildDataset, List.filterMap_cons]
  exact List.mem_cons_self _ _

/-- Witness for the amended C8 at a concrete invalid byte sequence. -/
theorem C8_invalid_utf8_still_loads_witness :
    validUtf8 [0xFF, 0x41] = false ∧
    (strL "a.txt", loadContent [0xFF, 0x41]) ∈
      buildDataset [(strL "a.txt", Except.ok [0xFF, 0x41])] :=
  ⟨by decide,
    C8_invalid_utf8_still_loads [] [] (strL "a.txt") [0xFF, 0x41] (by decide)⟩

/-- Claim C9: The end-to-end scenario: a directory holding `alice.txt`
(`"Hello"`) and `orphaned.txt` (`"ignored"`), with the template
`<script>window.IMESSAGE_DATA = {};</script>`, produces exactly
`<script>window.IMESSAGE_DATA = {\n  "alice.txt": "Hello"\n};</script>`
and the key `orphaned.txt` is absent from the embedded data. -/
theorem C9_scenario :
    run ((discover [strL "alice.txt", strL "orphaned.txt"]).map fun nm =>
        (nm, Except.ok (if nm = strL "alice.txt"
          then (strL "Hello").map Char.toNat
          else (strL "ignored").map Char.toNat)))
      (Except.ok (strL "<script>window.IMESSAGE_DATA = \x7b\x7d;</script>")) =
      Except.ok
        (strL "<script>window.IMESSAGE_DATA = \x7b\n  \"alice.txt\": \"Hello\"\n\x7d;</script>") ∧
    (buildDataset ((discover [strL "alice.txt", strL "orphaned.txt"]).map fun nm =>
        (nm, Except.ok (if nm = strL "alice.txt"
          then (strL "Hello").map Char.toNat
          else (strL "ignored").map Char.toNat)))).map Prod.fst =
      [strL "alice.txt"] := by
  refine ⟨rfl, rfl⟩

end GenerateViewer

namespace GenerateViewer

theorem hexVal_hexDigitChar : ∀ x < 16, hexVal (escChar.hexDigitChar x) = some x := by
  decide

theorem escString_cons (c : Char) (s : List Char) :
    escString (c :: s) = escChar c ++ escString s := by
  simp [escString]

theorem parseJStr_bs_quote (X : List Char) : parseJStr ('\\' :: '"' :: X) =
    (parseJStr X).map fun p => ('"' :: p.1, p.2) := rfl

theorem parseJStr_bs_bs (X : List Char) : parseJStr ('\\' :: '\\' :: X) =
    (parseJStr X).map fun p => ('\\' :: p.1, p.2) := rfl

theorem parseJStr_bs_b (X : List Char) : parseJStr ('\\' :: 'b' :: X) =
    (parseJStr X).map fun p => ('\x08' :: p.1, p.2) := rfl

theorem parseJStr_bs_f (X : List Char) : parseJStr ('\\' :: 'f' :: X) =
    (parseJStr X).map fun p => ('\x0c' :: p.1, p.2) := rfl

theorem parseJStr_bs_n (X : List Char) : parseJStr ('\\' :: 'n' :: X) =
    (parseJStr X).map fun p => ('\n' :: p.1, p.2) := rfl

theorem parseJStr_bs_r (X : List Char) : parseJStr ('\\' :: 'r' :: X) =
    (parseJStr X).map fun p => ('\r' :: p.1, p.2) := rfl

theorem parseJStr_bs_t (X : List Char) : parseJStr ('\\' :: 't' :: X) =
    (parseJStr X).map fun p => ('\t' :: p.1, p.2) := rfl

theorem parseJStr_u (h1 h2 h3 h4 : Char) (v1 v2 v3 v4 : Nat) (r : List Char)
    (e1 : hexVal h1 = some v1) (e2 : hexVal h2 = some v2)
    (e3 : hexVal h3 = some v3) (e4 : hexVal h4 = some v4) :
    parseJStr ('\\' :: 'u' :: h1 :: h2 :: h3 :: h4 :: r) =
      (parseJStr r).map fun p =>
        (Char.ofNat (((v1 * 16 + v2) * 16 + v3) * 16 + v4) :: p.1, p.2) := by
  rw [show parseJStr ('\\' :: 'u' :: h1 :: h2 :: h3 :: h4 :: r) =
      match hexVal h1, hexVal h2, hexVal h3, hexVal h4 with
      | some v1, some v2, some v3, some v4 =>
        (parseJStr r).map fun p =>
          (Char.ofNat (((v1 * 16 + v2) * 16 + v3) * 16 + v4) :: p.1, p.2)
      | _, _, _, _ => none from rfl, e1, e2, e3, e4]

theorem parseJStr_escString : ∀ (s r : List Char),
    parseJStr (escString s ++ '"' :: r) = some (s, r) := by
  intro s
  induction s with
  | nil => intro r; rfl
  | cons c s' ih =>
    intro r
    rw [escString_cons, List.append_assoc]
    by_cases h1 : c = '"'
    · subst h1
      rw [show escChar '"' = ['\\', '"'] from rfl]
      simp only [List.cons_append, List.nil_append]
      rw [parseJStr_bs_quote, ih r]
      rfl
    by_cases h2 : c = '\\'
    · subst h2
      rw [show escChar '\\' = ['\\', '\\'] from rfl]
      simp only [List.cons_append, List.nil_append]
      rw [parseJStr_bs_bs, ih r]
      rfl
    by_cases h3 : c = '\x08'
    · subst h3
      rw [show escChar '\x08' = ['\\', 'b'] from rfl]
      simp only [List.cons_append, List.nil_append]
      rw [parseJStr_bs_b, ih r]
      rfl
    by_cases h4 : c = '\x0c'
    · subst h4
      rw [show escChar '\x0c' = ['\\', 'f'] from rfl]
      simp only [List.cons_append, List.nil_append]
      rw [parseJStr_bs_f, ih r]
      rfl
    by_cases h5 : c = '\n'
    · subst h5
      rw [show escChar '\n' = ['\\', 'n'] from rfl]
      simp only [List.cons_append, List.nil_append]
      rw [parseJStr_bs_n, ih r]
      rfl
    by_cases h6 : c = '\r'
    · subst h6
      rw [show escChar '\r' = ['\\', 'r'] from rfl]
      simp only [List.cons_append, List.nil_append]
      rw [parseJStr_bs_r, ih r]
      rfl
    by_cases h7 : c = '\t'
    · subst h7
      rw [show escChar '\t' = ['\\', 't'] from rfl]
      simp only [List.cons_append, List.nil_append]
      rw [parseJStr_bs_t, ih r]
      rfl
    by_cases h8 : c.toNat < 0x20
    · rw [show escChar c = ['\\', 'u', '0', '0', escChar.hexDigitChar (c.toNat / 16),
          escChar.hexDigitChar (c.toNat % 16)] from by
        simp only [escChar, if_neg h1, if_neg h2, if_neg h3, if_neg h4, if_neg h5,
          if_neg h6, if_neg h7, if_pos h8]]
      simp only [List.cons_append, List.nil_append]
      rw [parseJStr_u '0' '0' _ _ 0 0 (c.toNat / 16) (c.toNat % 16) _ rfl rfl
          (hexVal_hexDigitChar (c.toNat / 16) (by omega))
          (hexVal_hexDigitChar (c.toNat % 16) (by omega)),
        ih r]
      have hvn : ((0 * 16 + 0) * 16 + c.toNat / 16) * 16 + c.toNat % 16 = c.toNat := by
        omega
      rw [Option.map_some', hvn, Char.ofNat_toNat]
    · rw [show escChar c = [c] from by
        simp only [escChar, if_neg h1, if_neg h2, if_neg h3, if_neg h4, if_neg h5,
          if_neg h6, if_neg h7, if_neg h8]]
      simp only [List.cons_append, List.nil_append]
      simp [parseJStr, h1, h2, ih r]

end GenerateViewer

namespace GenerateViewer

theorem parseEntries_match (f : Nat) (rest : List Char) :
    parseEntries (f + 1) (' ' :: ' ' :: '"' :: rest) =
      match parseJStr rest with
      | none => none
      | some (k, r1) =>
        match r1 with
        | ':' :: ' ' :: '"' :: r2 =>
          match parseJStr r2 with
          | none => none
          | some (v, r3) =>
            match r3 with
            | ',' :: '\n' :: more =>
              (parseEntries f more).map fun es => (k, v) :: es
            | ['\n', '\x7d'] => some [(k, v)]
            | _ => none
        | _ => none := rfl

theorem parseEntries_round :
    ∀ (m : List (List Char × List Char)), m ≠ [] →
      ∀ fuel, m.length ≤ fuel →
        parseEntries fuel (dumps.joinEntries m ++ ['\n', '\x7d']) = some m := by
  intro m
  induction m with
  | nil => intro h; exact absurd rfl h
  | cons kv tail ih =>
    intro _ fuel hfuel
    obtain ⟨k, v⟩ := kv
    match fuel, hfuel with
    | f + 1, hf =>
      cases tail with
      | nil =>
        rw [show dumps.joinEntries [(k, v)] ++ ['\n', '\x7d'] =
            ' ' :: ' ' :: '"' :: (escString k ++ '"' ::
              (':' :: ' ' :: '"' :: (escString v ++ '"' :: ['\n', '\x7d']))) from by
          simp [entryOf, dumps.joinEntries, List.append_assoc]]
        rw [parseEntries_match, parseJStr_escString k]
        simp only [parseJStr_escString v]
      | cons kv' tail' =>
        rw [show dumps.joinEntries ((k, v) :: kv' :: tail') ++ ['\n', '\x7d'] =
            ' ' :: ' ' :: '"' :: (escString k ++ '"' ::
              (':' :: ' ' :: '"' :: (escString v ++ '"' ::
                (',' :: '\n' :: (dumps.joinEntries (kv' :: tail') ++ ['\n', '\x7d']))))) from by
          simp [entryOf, dumps.joinEntries, List.append_assoc]]
        rw [parseEntries_match, parseJStr_escString k]
        simp only [parseJStr_escString v]
        rw [ih (List.cons_ne_nil kv' tail') f (by
          simp only [List.length_cons] at hf ⊢
          omega)]
        rfl

theorem length_le_joinEntries :
    ∀ (m : List (List Char × List Char)), m.length ≤ (dumps.joinEntries m).length := by
  intro m
  induction m with
  | nil => simp [dumps.joinEntries]
  | cons kv tail ih =>
    cases tail with
    | nil => simp [dumps.joinEntries, entryOf]
    | cons kv' tail' =>
      rw [show dumps.joinEntries (kv :: kv' :: tail') =
        entryOf kv ++ ',' :: '\n' :: dumps.joinEntries (kv' :: tail') from rfl]
      simp only [List.length_cons, List.length_append, entryOf]
      simp at ih ⊢
      omega

end GenerateViewer

namespace GenerateViewer

/-- Claim C2: Round-trip of the serializer. -/
theorem C2_serialize_roundtrip (m : List (List Char × List Char))
    (hnodup : (m.map Prod.fst).Nodup) :
    parse (dumps m) = some m ∧
    ∀ c : Char, 0x80 ≤ c.toNat → escChar c = [c] := by
  constructor
  · cases m with
    | nil => rfl
    | cons kv rest =>
      rw [show dumps (kv :: rest) =
        '\x7b' :: '\n' :: (dumps.joinEntries (kv :: rest) ++ ['\n', '\x7d']) from rfl]
      rw [show parse ('\x7b' :: '\n' ::
          (dumps.joinEntries (kv :: rest) ++ ['\n', '\x7d'])) =
        parseEntries ('\x7b' :: '\n' ::
            (dumps.joinEntries (kv :: rest) ++ ['\n', '\x7d'])).length
          (dumps.joinEntries (kv :: rest) ++ ['\n', '\x7d']) from rfl]
      exact parseEntries_round (kv :: rest) (List.cons_ne_nil kv rest) _ (by
        have := length_le_joinEntries (kv :: rest)
        simp only [List.length_cons, List.length_append] at this ⊢
        omega)
  · intro c hc
    have h1 : c ≠ '"' := fun h => by rw [h] at hc; exact absurd hc (by decide)
    have h2 : c ≠ '\\' := fun h => by rw [h] at hc; exact absurd hc (by decide)
    have h3 : c ≠ '\x08' := fun h => by rw [h] at hc; exact absurd hc (by decide)
    have h4 : c ≠ '\x0c' := fun h => by rw [h] at hc; exact absurd hc (by decide)
    have h5 : c ≠ '\n' := fun h => by rw [h] at hc; exact absurd hc (by decide)
    have h6 : c ≠ '\r' := fun h => by rw [h] at hc; exact absurd hc (by decide)
    have h7 : c ≠ '\t' := fun h => by rw [h] at hc; exact absurd hc (by decide)
    have h8 : ¬ c.toNat < 0x20 := by omega
    simp only [escChar, if_neg h1, if_neg h2, if_neg h3, if_neg h4, if_neg h5,
      if_neg h6, if_neg h7, if_neg h8]

/-- Witness for C2 at a concrete mapping with a non-ASCII value. -/
theorem C2_serialize_roundtrip_witness :
    ([(strL "a.txt", strL "hé")].map Prod.fst).Nodup ∧
    parse (dumps [(strL "a.txt", strL "hé")]) = some [(strL "a.txt", strL "hé")] :=
  ⟨by decide, (C2_serialize_roundtrip [(strL "a.txt", strL "hé")] (by decide)).1⟩

end GenerateViewer

namespace GenerateViewer

/-! ## Shape of the serialized assignment text -/

theorem hexDigitChar_ne_nl : ∀ x < 16, escChar.hexDigitChar x ≠ '\n' := by
  decide

theorem noNl_escChar (c : Char) : '\n' ∉ escChar c := by
  unfold escChar
  split_ifs with h1 h2 h3 h4 h5 h6 h7 h8
  · decide
  · decide
  · decide
  · decide
  · decide
  · decide
  · decide
  · intro hmem
    simp only [List.mem_cons, List.not_mem_nil, or_false] at hmem
    rcases hmem with h | h | h | h | h | h
    · exact absurd h (by decide)
    · exact absurd h (by decide)
    · exact absurd h (by decide)
    · exact absurd h (by decide)
    · exact hexDigitChar_ne_nl (c.toNat / 16) (by omega) h.symm
    · exact hexDigitChar_ne_nl (c.toNat % 16) (by omega) h.symm
  · intro hmem
    simp only [List.mem_cons, List.not_mem_nil, or_false] at hmem
    exact h5 hmem.symm

theorem noNl_escString (s : List Char) : '\n' ∉ escString s := by
  induction s with
  | nil => simp [escString]
  | cons c s' ih =>
    rw [escString_cons]
    intro hmem
    rcases List.mem_append.mp hmem with h | h
    · exact noNl_escChar c h
    · exact ih h

theorem noNl_entryOf (kv : List Char × List Char) : '\n' ∉ entryOf kv := by
  intro hmem
  simp only [entryOf, List.append_assoc, List.mem_append, List.mem_cons,
    List.not_mem_nil, or_false] at hmem
  rcases hmem with h | h | h | h
  · rcases h with h | h | h
    all_goals exact absurd h (by decide)
  · exact noNl_escString kv.1 h
  · rcases h with h | h | h | h
    all_goals exact absurd h (by decide)
  · rcases h with h | h
    · exact noNl_escString kv.2 h
    · exact absurd h (by decide)

theorem joinEntries_head (kv : List Char × List Char)
    (rest : List (List Char × List Char)) :
    ∃ t, dumps.joinEntries (kv :: rest) = ' ' :: t := by
  cases rest with
  | nil => exact ⟨_, rfl⟩
  | cons kv' rest' => exact ⟨_, rfl⟩

end GenerateViewer

namespace GenerateViewer

/-- Inside the joined entry lines, every newline belongs to a `",\n"`
separator and is immediately followed by the next entry's leading space. -/
theorem joinEntries_nl (m : List (List Char × List Char)) :
    ∀ q c, (dumps.joinEntries m)[q]? = some '\n' →
      (dumps.joinEntries m)[q + 1]? = some c → c = ' ' := by
  induction m with
  | nil =>
    intro q c h _
    simp [dumps.joinEntries] at h
  | cons kv tail ih =>
    cases tail with
    | nil =>
      intro q c h _
      exact absurd (List.getElem?_mem h) (noNl_entryOf kv)
    | cons kv' tail' =>
      intro q c h1 h2
      rw [show dumps.joinEntries (kv :: kv' :: tail') =
        entryOf kv ++ ',' :: '\n' :: dumps.joinEntries (kv' :: tail') from rfl] at h1 h2
      rw [List.getElem?_append] at h1 h2
      by_cases hq : q < (entryOf kv).length
      · rw [if_pos hq] at h1
        exact absurd (List.getElem?_mem h1) (noNl_entryOf kv)
      · rw [if_neg hq] at h1
        rw [if_neg (by omega)] at h2
        obtain ⟨d, hdq⟩ : ∃ d, q = (entryOf kv).length + d :=
          ⟨q - (entryOf kv).length, by omega⟩
        subst hdq
        rw [Nat.add_sub_cancel_left] at h1
        rw [show (entryOf kv).length + d + 1 - (entryOf kv).length = d + 1 by omega] at h2
        match d with
        | 0 =>
          rw [List.getElem?_cons_zero] at h1
          exact absurd (Option.some.inj h1) (by decide)
        | 1 =>
          rw [List.getElem?_cons_succ, List.getElem?_cons_succ] at h2
          obtain ⟨t, ht⟩ := joinEntries_head kv' tail'
          rw [ht, List.getElem?_cons_zero] at h2
          exact (Option.some.inj h2).symm
        | d + 2 =>
          rw [List.getElem?_cons_succ, List.getElem?_cons_succ] at h1 h2
          exact ih d c h1 h2

/-- Inside `window.IMESSAGE_DATA = {` followed by a newline and the
joined entries, a newline is never immediately followed by `}`. -/
theorem chunk_no_nl_brace (kv : List Char × List Char)
    (tail : List (List Char × List Char)) :
    ∀ i, (assignPrefixL ++ '\x7b' :: '\n' :: dumps.joinEntries (kv :: tail))[i]? =
        some '\n' →
      (assignPrefixL ++ '\x7b' :: '\n' :: dumps.joinEntries (kv :: tail))[i + 1]? ≠
        some '\x7d' := by
  intro i h1 h2
  rw [List.getElem?_append] at h1 h2
  by_cases hi : i < assignPrefixL.length
  · rw [if_pos hi] at h1
    exact absurd (List.getElem?_mem h1) (by decide)
  · rw [if_neg hi] at h1
    rw [if_neg (by omega)] at h2
    obtain ⟨d, hdq⟩ : ∃ d, i = assignPrefixL.length + d :=
      ⟨i - assignPrefixL.length, by omega⟩
    subst hdq
    rw [Nat.add_sub_cancel_left] at h1
    rw [show assignPrefixL.length + d + 1 - assignPrefixL.length = d + 1 by omega] at h2
    match d with
    | 0 =>
      rw [List.getElem?_cons_zero] at h1
      exact absurd (Option.some.inj h1) (by decide)
    | 1 =>
      rw [List.getElem?_cons_succ, List.getElem?_cons_succ] at h2
      obtain ⟨t, ht⟩ := joinEntries_head kv tail
      rw [ht, List.getElem?_cons_zero] at h2
      exact absurd (Option.some.inj h2) (by decide)
    | d + 2 =>
      rw [List.getElem?_cons_succ, List.getElem?_cons_succ] at h1 h2
      exact absurd (joinEntries_nl (kv :: tail) d '\x7d' h1 h2) (by decide)

/-- The serialized assignment for a non-empty mapping, decomposed at its
closing `"\n};"`. -/
theorem injectNew_shape (kv : List Char × List Char)
    (tail : List (List Char × List Char)) :
    injectNew (dumps (kv :: tail)) =
      (assignPrefixL ++ '\x7b' :: '\n' :: dumps.joinEntries (kv :: tail)) ++
        ['\n', '\x7d', ';'] := by
  simp [injectNew, dumps, List.append_assoc]

/-- In the serialized assignment for a non-empty mapping, the adjacency
`"\n}"` occurs only at the very end. -/
theorem injectNew_nl_brace (kv : List Char × List Char)
    (tail : List (List Char × List Char)) :
    ∀ i, (injectNew (dumps (kv :: tail)))[i]? = some '\n' →
      (injectNew (dumps (kv :: tail)))[i + 1]? = some '\x7d' →
      i = (injectNew (dumps (kv :: tail))).length - 3 := by
  intro i h1 h2
  rw [injectNew_shape] at h1 h2 ⊢
  rw [List.getElem?_append] at h1 h2
  rw [List.length_append]
  set C := assignPrefixL ++ '\x7b' :: '\n' :: dumps.joinEntries (kv :: tail) with hC
  by_cases hi : i < C.length
  · rw [if_pos hi] at h1
    by_cases hi1 : i + 1 < C.length
    · rw [if_pos hi1] at h2
      exact absurd h2 (chunk_no_nl_brace kv tail i h1)
    · rw [if_neg hi1, show i + 1 - C.length = 0 by omega,
        List.getElem?_cons_zero] at h2
      exact absurd (Option.some.inj h2) (by decide)
  · rw [if_neg hi] at h1
    obtain ⟨d, hdq⟩ : ∃ d, i = C.length + d := ⟨i - C.length, by omega⟩
    subst hdq
    rw [Nat.add_sub_cancel_left] at h1
    match d with
    | 0 => simp
    | 1 =>
      rw [List.getElem?_cons_succ, List.getElem?_cons_zero] at h1
      exact absurd (Option.some.inj h1) (by decide)
    | 2 =>
      rw [List.getElem?_cons_succ, List.getElem?_cons_succ,
        List.getElem?_cons_zero] at h1
      exact absurd (Option.some.inj h1) (by decide)
    | d + 3 =>
      rw [List.getElem?_cons_succ, List.getElem?_cons_succ,
        List.getElem?_cons_succ] at h1
      rw [List.getElem?_eq_none (by simp)] at h1
      exact absurd h1 (by simp)

end GenerateViewer

namespace GenerateViewer

theorem concat3_getElem (C : List Char) (a b c : Char) :
    (C ++ [a, b, c])[C.length]? = some a ∧
    (C ++ [a, b, c])[C.length + 1]? = some b ∧
    (C ++ [a, b, c])[C.length + 2]? = some c := by
  refine ⟨?_, ?_, ?_⟩
  · rw [List.getElem?_append, if_neg (by omega), Nat.sub_self,
      List.getElem?_cons_zero]
  · rw [List.getElem?_append, if_neg (by omega),
      show C.length + 1 - C.length = 1 by omega,
      List.getElem?_cons_succ, List.getElem?_cons_zero]
  · rw [List.getElem?_append, if_neg (by omega),
      show C.length + 2 - C.length = 2 by omega,
      List.getElem?_cons_succ, List.getElem?_cons_succ, List.getElem?_cons_zero]

theorem injectNew_head (m : List (List Char × List Char)) :
    (injectNew (dumps m))[0]? = some 'w' := by
  show (assignPrefixL ++ (dumps m ++ [';']))[0]? = some 'w'
  rw [List.getElem?_append, if_pos (by decide)]
  decide

/-- The serialized assignment text never overlaps itself: no nonempty
proper suffix of it is also a prefix of it. -/
theorem overlapFree_injectNew (m : List (List Char × List Char)) :
    overlapFree (injectNew (dumps m)) := by
  cases m with
  | nil => decide
  | cons kv tail =>
    intro d hd hd0 heq
    have hgets : ∀ j, (injectNew (dumps (kv :: tail)))[d + j]? =
        ((injectNew (dumps (kv :: tail))).take
          ((injectNew (dumps (kv :: tail))).length - d))[j]? := by
      intro j
      rw [← heq, List.getElem?_drop]
    obtain ⟨hg1, hg2, hg3⟩ := concat3_getElem
      (assignPrefixL ++ '\x7b' :: '\n' :: dumps.joinEntries (kv :: tail)) '\n' '\x7d' ';'
    rw [← injectNew_shape] at hg1 hg2 hg3
    have hhead := injectNew_head (kv :: tail)
    have hnlb := injectNew_nl_brace kv tail
    have hAlen : (injectNew (dumps (kv :: tail))).length =
        (assignPrefixL ++ '\x7b' :: '\n' :: dumps.joinEntries (kv :: tail)).length + 3 := by
      rw [injectNew_shape, List.length_append]
      rfl
    set A := injectNew (dumps (kv :: tail)) with hA
    set L := (assignPrefixL ++ '\x7b' :: '\n' :: dumps.joinEntries (kv :: tail)).length
      with hL
    by_cases hk1 : A.length - d = 1
    · have h0 := hgets 0
      rw [List.getElem?_take, if_pos (by omega), Nat.add_zero,
        show d = L + 2 by omega, hg3, hhead] at h0
      exact absurd (Option.some.inj h0) (by decide)
    by_cases hk2 : A.length - d = 2
    · have h0 := hgets 0
      rw [List.getElem?_take, if_pos (by omega), Nat.add_zero,
        show d = L + 1 by omega, hg2, hhead] at h0
      exact absurd (Option.some.inj h0) (by decide)
    -- now 3 ≤ A.length - d
    have hk3 : 3 ≤ A.length - d := by omega
    have e1 := hgets (A.length - d - 3)
    rw [List.getElem?_take, if_pos (by omega),
      show d + (A.length - d - 3) = L by omega, hg1] at e1
    have e2 := hgets (A.length - d - 2)
    rw [List.getElem?_take, if_pos (by omega),
      show d + (A.length - d - 2) = L + 1 by omega, hg2] at e2
    have := hnlb (A.length - d - 3) e1.symm (by
      rw [show A.length - d - 3 + 1 = A.length - d - 2 by omega]
      exact e2.symm)
    omega

theorem injectNew_ne_nil (D : List Char) : injectNew D ≠ [] := by
  intro h
  rw [injectNew] at h
  exact absurd (List.append_eq_nil.mp (List.append_eq_nil.mp h).1).1 (by decide)

/-- No proper tail of the marker is a prefix of the injected assignment
(or of anything beginning with `window.IMESSAGE_DATA = `). -/
theorem noMarkerDropPrefix : ∀ j, 0 < j → j < 26 → ∀ (W : List Char),
    ¬ (markerL.drop j <+: assignPrefixL ++ W) := by
  intro j hj0 hj26 W hpre
  have e : markerL.drop j =
      (assignPrefixL ++ W).take (markerL.drop j).length :=
    List.prefix_iff_eq_take.mp hpre
  have e23 : (markerL.drop j).take 23 =
      assignPrefixL.take (min 23 (markerL.drop j).length) := by
    conv_lhs => rw [e]
    rw [List.take_take, List.take_append_eq_append_take,
      Nat.sub_eq_zero_of_le (by
        rw [show assignPrefixL.length = 23 from rfl]
        omega),
      List.take_zero, List.append_nil]
  rw [show (markerL.drop j).length = 26 - j by
    rw [List.length_drop, show markerL.length = 26 from rfl]] at e23
  have hdec : ∀ jj, jj < 26 → 0 < jj →
      (markerL.drop jj).take 23 ≠ assignPrefixL.take (min 23 (26 - jj)) := by
    decide
  exact hdec j hj26 hj0 e23

/-- No nonempty proper prefix of the marker ends in `';'`. -/
theorem takeMarker_getLast : ∀ t, t < 26 → 0 < t →
    (markerL.take t).getLastD 'x' ≠ ';' := by
  decide

theorem countOcc_append_left_zero {X Y pat : List Char} (hp : pat ≠ [])
    (h : countOcc (X ++ Y) pat = 0) : countOcc X pat = 0 := by
  rw [countOcc_eq_zero hp] at h ⊢
  intro i hocc
  rcases Nat.lt_or_ge i X.length with hi | hi
  · refine h i ?_
    rw [occursAt] at hocc ⊢
    rw [List.drop_append_eq_append_drop, Nat.sub_eq_zero_of_le (le_of_lt hi),
      List.drop_zero]
    exact hocc.trans (List.prefix_append _ _)
  · rw [occursAt, List.drop_of_length_le hi] at hocc
    exact hp (List.prefix_nil.mp hocc)

theorem countOcc_append_right_zero {X Y pat : List Char} (hp : pat ≠ [])
    (h : countOcc (X ++ Y) pat = 0) : countOcc Y pat = 0 := by
  rw [countOcc_eq_zero hp] at h ⊢
  intro i hocc
  exact h (X.length + i) (occursAt_append_right hocc)

/-- Claim C1, amended: For a template containing the marker exactly once
and a dataset whose serialized assignment text neither contains the
marker nor occurs in the template, `inject` produces a document with
zero remaining occurrences of the marker and exactly one occurrence of
the assignment text. -/
theorem C1_inject_marker_eliminated (t : List Char)
    (m : List (List Char × List Char))
    (h1 : countOcc t markerL = 1)
    (h2 : countOcc (injectNew (dumps m)) markerL = 0)
    (h3 : countOcc t (injectNew (dumps m)) = 0) :
    countOcc (inject t (dumps m)) markerL = 0 ∧
    countOcc (inject t (dumps m)) (injectNew (dumps m)) = 1 := by
  obtain ⟨P, S, ht, hP⟩ := first_occurrence markerL_ne_nil (s := t) (by omega)
  have hS : countOcc S markerL = 0 := by
    have := countOcc_sandwich (S := S) markerL_ne_nil markerL_overlapFree hP
    rw [← ht, h1] at this
    omega
  have hinj : inject t (dumps m) = P ++ injectNew (dumps m) ++ S := by
    rw [ht, inject, replaceFirst_sandwich markerL_ne_nil markerL_overlapFree hP]
  constructor
  · obtain ⟨kv, tail, rfl⟩ : ∃ kv tail, m = kv :: tail := by
      cases m with
      | nil => exact absurd h2 (by decide)
      | cons kv tail => exact ⟨kv, tail, rfl⟩
    rw [hinj, List.append_assoc, countOcc_eq_zero markerL_ne_nil]
    intro i hocc
    have hml : markerL.length = 26 := rfl
    have hAlen2 : (injectNew (dumps (kv :: tail))).length =
        (assignPrefixL ++ dumps (kv :: tail)).length + 1 := by
      rw [injectNew, List.length_append]
      rfl
    rcases Nat.lt_or_ge i P.length with hiP | hiP
    · rcases le_or_lt (i + 26) P.length with hfit | hover
      · exact (countOcc_eq_zero markerL_ne_nil).mp hP i
          (occursAt_left hocc (by rw [hml]; omega))
      · have hdropi : (P ++ (injectNew (dumps (kv :: tail)) ++ S)).drop i =
            P.drop i ++ (injectNew (dumps (kv :: tail)) ++ S) := by
          rw [List.drop_append_eq_append_drop,
            Nat.sub_eq_zero_of_le (le_of_lt hiP), List.drop_zero]
        rw [occursAt, hdropi] at hocc
        have e : markerL =
            (P.drop i ++ (injectNew (dumps (kv :: tail)) ++ S)).take 26 := by
          rw [← hml]
          exact List.prefix_iff_eq_take.mp hocc
        have hjlen : (P.drop i).length = P.length - i := List.length_drop _ _
        have hdropj : markerL.drop (P.length - i) =
            (injectNew (dumps (kv :: tail)) ++ S).take (26 - (P.length - i)) := by
          rw [e, List.drop_take, ← hjlen, List.drop_left]
        have hpre : markerL.drop (P.length - i) <+:
            injectNew (dumps (kv :: tail)) ++ S := by
          rw [hdropj]
          exact List.take_prefix _ _
        have hshape : injectNew (dumps (kv :: tail)) ++ S =
            assignPrefixL ++ (dumps (kv :: tail) ++ ';' :: S) := by
          rw [injectNew]
          simp [List.append_assoc]
        rw [hshape] at hpre
        exact noMarkerDropPrefix (P.length - i) (by omega) (by omega) _ hpre
    · have hAS : occursAt (injectNew (dumps (kv :: tail)) ++ S) markerL
          (i - P.length) := occursAt_right hocc hiP
      rcases Nat.lt_or_ge (i - P.length) (injectNew (dumps (kv :: tail))).length
        with hpA | hpA
      · by_cases hp0 : i - P.length = 0
        · rw [hp0, occursAt, List.drop_zero] at hAS
          have hshape : injectNew (dumps (kv :: tail)) ++ S =
              assignPrefixL ++ ('\x7b' :: '\n' ::
                (dumps.joinEntries (kv :: tail) ++ '\n' :: '\x7d' :: ';' :: S)) := by
            rw [injectNew]
            simp [dumps, List.append_assoc]
          rw [hshape,
            show markerL = assignPrefixL ++ ['\x7b', '\x7d', ';'] from rfl,
            List.prefix_append_right_inj] at hAS
          rw [List.cons_prefix_cons] at hAS
          rw [List.cons_prefix_cons] at hAS
          exact absurd hAS.2.1 (by decide)
        · by_cases hfitA : i - P.length + 26 ≤ (injectNew (dumps (kv :: tail))).length
          · exact (countOcc_eq_zero markerL_ne_nil).mp h2 _
              (occursAt_left hAS (by rw [hml]; omega))
          · have hdropp : (injectNew (dumps (kv :: tail)) ++ S).drop (i - P.length) =
                (injectNew (dumps (kv :: tail))).drop (i - P.length) ++ S := by
              rw [List.drop_append_eq_append_drop,
                Nat.sub_eq_zero_of_le (le_of_lt hpA), List.drop_zero]
            rw [occursAt, hdropp] at hAS
            have e : markerL =
                ((injectNew (dumps (kv :: tail))).drop (i - P.length) ++ S).take 26 := by
              rw [← hml]
              exact List.prefix_iff_eq_take.mp hAS
            have hdlen : ((injectNew (dumps (kv :: tail))).drop (i - P.length)).length =
                (injectNew (dumps (kv :: tail))).length - (i - P.length) :=
              List.length_drop _ _
            have htake : markerL.take
                ((injectNew (dumps (kv :: tail))).length - (i - P.length)) =
                (injectNew (dumps (kv :: tail))).drop (i - P.length) := by
              rw [e, List.take_take, Nat.min_eq_left (by omega),
                List.take_append_eq_append_take,
                List.take_of_length_le (le_of_eq hdlen), hdlen,
                Nat.sub_self, List.take_zero, List.append_nil]
            have hconc : (injectNew (dumps (kv :: tail))).drop (i - P.length) =
                (assignPrefixL ++ dumps (kv :: tail)).drop (i - P.length) ++ [';'] := by
              rw [injectNew, List.drop_append_eq_append_drop,
                show i - P.length - (assignPrefixL ++ dumps (kv :: tail)).length = 0
                  from by omega,
                List.drop_zero]
            have hlastA : (markerL.take
                ((injectNew (dumps (kv :: tail))).length - (i - P.length))).getLastD 'x' =
                ';' := by
              rw [htake, hconc, List.getLastD_concat]
            exact takeMarker_getLast _ (by omega) (by omega) hlastA
      · exact (countOcc_eq_zero markerL_ne_nil).mp hS _ (occursAt_right hAS hpA)
  · have h3' : countOcc (P ++ (markerL ++ S)) (injectNew (dumps m)) = 0 := by
      rw [← List.append_assoc, ← ht]
      exact h3
    have hPA : countOcc P (injectNew (dumps m)) = 0 :=
      countOcc_append_left_zero (injectNew_ne_nil _) h3'
    have hSA : countOcc S (injectNew (dumps m)) = 0 :=
      countOcc_append_right_zero (injectNew_ne_nil _)
        (countOcc_append_right_zero (injectNew_ne_nil _) h3')
    rw [hinj, countOcc_sandwich (injectNew_ne_nil _) (overlapFree_injectNew m) hPA,
      hSA]

/-- Claim C1, counterexample: As universally stated, the claim fails:
for the empty dataset the serialized assignment is the marker itself, so
the marker remains (first conjunct); and for a template that happens to
contain the assignment text next to the marker, the output holds two
occurrences of the assignment, not one (second conjunct). -/
theorem C1_counterexample :
    (countOcc markerL markerL = 1 ∧
      countOcc (inject markerL (dumps [])) markerL = 1) ∧
    (countOcc (injectNew (dumps [(strL "a", strL "b")]) ++ markerL) markerL = 1 ∧
      countOcc
        (inject (injectNew (dumps [(strL "a", strL "b")]) ++ markerL)
          (dumps [(strL "a", strL "b")]))
        (injectNew (dumps [(strL "a", strL "b")])) = 2) :=
  ⟨⟨by decide, by decide⟩, by decide, by decide⟩

/-- Witness for the amended C1 at a concrete template and dataset. -/
theorem C1_inject_marker_eliminated_witness :
    countOcc (strL "<script>" ++ markerL ++ strL "</script>") markerL = 1 ∧
    countOcc (inject (strL "<script>" ++ markerL ++ strL "</script>")
      (dumps [(strL "a", strL "b")])) markerL = 0 ∧
    countOcc (inject (strL "<script>" ++ markerL ++ strL "</script>")
      (dumps [(strL "a", strL "b")]))
      (injectNew (dumps [(strL "a", strL "b")])) = 1 :=
  ⟨by decide,
    (C1_inject_marker_eliminated (strL "<script>" ++ markerL ++ strL "</script>")
      [(strL "a", strL "b")] (by decide) (by decide) (by decide)).1,
    (C1_inject_marker_eliminated (strL "<script>" ++ markerL ++ strL "</script>")
      [(strL "a", strL "b")] (by decide) (by decide) (by decide)).2⟩

end GenerateViewer
